import Mathlib

/-!
# Verification of the string_utils_py library

This development gives a shallow embedding of the functions of
src/string_utils_py/__init__.py over `List Char` (Python `str` values are
modelled as lists of unicode scalar values) and proves properties of the
embedded functions.

Modelling conventions:
* Python strings are `List Char`; slicing, `find`, `rjust`, `splitlines`,
  `join` are embedded as explicit list functions below.
* Python `str.lower`/`str.upper`/single-character `str.capitalize` are
  modelled on the ASCII letters (`pyLowerChar`, `pyUpperChar`), matching
  CPython behaviour on all ASCII input; the character classes appearing in
  the source's regular expressions (`[a-z]`, `[A-Z]`, `[^...]`, `\w`) are
  exact for `[a-z]`/`[A-Z]`/`[^...]` and ASCII-restricted for `\w`.
* Fallible code (`max()` on an empty sequence, `raise KeyError`) is
  embedded with `Option`/`Except` results.
* Loops whose termination is part of what is being verified are embedded
  with an explicit fuel parameter so that the embedded functions stay
  executable by the kernel; the fuel given at the call sites is proved
  sufficient.
-/

/-- Character code of a `Char` (unicode scalar value), as a `Nat`. -/
def charCode (c : Char) : Nat := c.toNat

theorem charCode_lt (c : Char) : charCode c < 0x110000 := by
  rcases c.valid with h | h
  · exact Nat.lt_trans h (by decide)
  · exact h.2

theorem toNat_ofNat_valid (n : Nat) (h : n < 0xd800) : (Char.ofNat n).toNat = n := by
  rw [Char.ofNat, dif_pos (Or.inl h : n.isValidChar)]
  rfl

/-- Membership in `[A-Z]`, the regex character class of ASCII capital letters. -/
def isUpperAZ (c : Char) : Bool := 65 ≤ charCode c && charCode c ≤ 90

/-- Membership in `[a-z]`, the regex character class of ASCII lowercase letters. -/
def isLowerAZ (c : Char) : Bool := 97 ≤ charCode c && charCode c ≤ 122

/-- Python `str.lower` on one character (ASCII model): maps `A`-`Z` to
`a`-`z` and leaves everything else unchanged. -/
def pyLowerChar (c : Char) : Char :=
  if 65 ≤ charCode c ∧ charCode c ≤ 90 then Char.ofNat (charCode c + 32) else c

/-- Python `str.upper` on one character, which is also Python
`str.capitalize` on a one-character string (ASCII model): maps `a`-`z` to
`A`-`Z` and leaves everything else unchanged. -/
def pyUpperChar (c : Char) : Char :=
  if 97 ≤ charCode c ∧ charCode c ≤ 122 then Char.ofNat (charCode c - 32) else c

theorem charCode_pyLowerChar (c : Char) (h : 65 ≤ charCode c ∧ charCode c ≤ 90) :
    charCode (pyLowerChar c) = charCode c + 32 := by
  unfold pyLowerChar
  rw [if_pos h]
  exact toNat_ofNat_valid _ (by omega)

theorem pyUpperChar_pyLowerChar (c : Char) :
    pyUpperChar (pyLowerChar c) = pyUpperChar c := by
  by_cases h : 65 ≤ charCode c ∧ charCode c ≤ 90
  · have hcode := charCode_pyLowerChar c h
    unfold pyUpperChar
    rw [if_pos (by omega), if_neg (by omega), hcode]
    have : charCode c + 32 - 32 = charCode c := by omega
    rw [this]
    exact Char.ofNat_toNat c
  · unfold pyLowerChar
    rw [if_neg h]

theorem pyLowerChar_eq_newline {c : Char} (h : pyLowerChar c = '\n') : c = '\n' := by
  by_cases hc : 65 ≤ charCode c ∧ charCode c ≤ 90
  · exfalso
    have := congrArg charCode h
    rw [charCode_pyLowerChar c hc] at this
    have : charCode c + 32 = 10 := this
    omega
  · rw [pyLowerChar, if_neg hc] at h
    exact h

/-- Embedding of `re_sub(pattern=r'^.', repl=lambda m: m.group(0).capitalize(), string=s)`:
the regex `^.` matches the first character unless the string is empty or the
first character is a newline (`.` does not match a newline); the match is
replaced with its capitalization. -/
def uppercase_first_character : List Char → List Char
  | [] => []
  | c :: rest => if c = '\n' then c :: rest else pyUpperChar c :: rest

/-- Embedding of `re_sub(pattern=r'^.', repl=lambda m: m.group(0).lower(), string=s)`. -/
def lowercase_first_character : List Char → List Char
  | [] => []
  | c :: rest => if c = '\n' then c :: rest else pyLowerChar c :: rest

/-- The claim's description of the composed result: the input with exactly
its first character uppercased and every other character unchanged. -/
def upperFirstSpec : List Char → List Char
  | [] => []
  | c :: rest => pyUpperChar c :: rest

/-- C9: for every string `s`,
`uppercase_first_character(lowercase_first_character(s))` equals `s` with
only its first character uppercased and every other character unchanged. -/
theorem uppercase_lowercase_first_character_spec (s : List Char) :
    uppercase_first_character (lowercase_first_character s) = upperFirstSpec s := by
  match s with
  | [] => rfl
  | c :: rest =>
    by_cases h : c = '\n'
    · subst h
      have hup : pyUpperChar '\n' = '\n' := by decide
      simp [lowercase_first_character, uppercase_first_character, upperFirstSpec, hup]
    · rw [lowercase_first_character, if_neg h, uppercase_first_character]
      rw [if_neg (fun hl => h (pyLowerChar_eq_newline hl))]
      rw [upperFirstSpec, pyUpperChar_pyLowerChar]

/-- Is `c` one of the characters of `next` when `next` holds the following
character (used for the lookahead `(?=[a-z])`)? -/
def optIsLowerAZ : Option Char → Bool
  | some c => isLowerAZ c
  | none => false

/-- The condition under which the pattern
`(?<=.)((?<=[a-z])[A-Z]|[A-Z](?=[a-z]))` matches at a character `c` whose
preceding character is `prev` (`none` at the start of the string) and whose
following character is `next`.  The lookbehind `(?<=.)` requires a preceding
character that is not a newline; the alternation requires `c` to be a
capital preceded by a lowercase letter or followed by a lowercase letter. -/
def camelBoundary (prev : Option Char) (c : Char) (next : Option Char) : Bool :=
  match prev with
  | none => false
  | some p =>
    (p != '\n') && ((isLowerAZ p && isUpperAZ c) || (isUpperAZ c && optIsLowerAZ next))

/-- Embedding of the substitution with the camel-boundary pattern:
every matched character (each match is a single character) is replaced by an
underscore followed by itself.  `prev` is the character preceding the
current head of the list in the original string. -/
def camelSub (prev : Option Char) : List Char → List Char
  | [] => []
  | c :: rest =>
    (if camelBoundary prev c rest.head? then ['_', c] else [c]) ++ camelSub (some c) rest

/-- Embedding of `str.replace('-', '')`. -/
def removeDashes (l : List Char) : List Char := l.filter (fun c => c != '-')

/-- Embedding of `str.replace('-', '_')` applied per character. -/
def dashToUnderscore (c : Char) : Char := if c = '-' then '_' else c

/-- Embedding of `to_snake_case`: strip hyphens, insert an underscore before each match
of the camel-case boundary pattern, replace remaining hyphens with
underscores, and lowercase the result. -/
def to_snake_case (l : List Char) : List Char :=
  ((camelSub none (removeDashes l)).map dashToUnderscore).map pyLowerChar

/-- The boundary condition as the claim words it: a capital letter that is
not the first character and is either preceded by a lowercase letter or
immediately followed by a lowercase letter. -/
def claimBoundary (prev : Option Char) (c : Char) (next : Option Char) : Bool :=
  prev.isSome && isUpperAZ c && (optIsLowerAZ prev || optIsLowerAZ next)

/-- Underscore insertion with the claim's boundary condition. -/
def claimCamelSub (prev : Option Char) : List Char → List Char
  | [] => []
  | c :: rest =>
    (if claimBoundary prev c rest.head? then ['_', c] else [c]) ++ claimCamelSub (some c) rest

/-- The pipeline described by claim C6: delete hyphens, insert underscores
at the claim's boundaries, lowercase the whole result. -/
def snakeCaseClaim (l : List Char) : List Char :=
  (claimCamelSub none (removeDashes l)).map pyLowerChar

/-- The boundary condition amended only as far as the counterexample
forces: additionally require that the preceding character is not a newline
(when the preceding character is a lowercase letter it cannot be a newline,
so the guard only restricts the followed-by-lowercase alternative). -/
def amendedBoundary (prev : Option Char) (c : Char) (next : Option Char) : Bool :=
  match prev with
  | none => false
  | some p => isUpperAZ c && (isLowerAZ p || (p != '\n' && optIsLowerAZ next))

/-- Underscore insertion with the amended boundary condition. -/
def amendedCamelSub (prev : Option Char) : List Char → List Char
  | [] => []
  | c :: rest =>
    (if amendedBoundary prev c rest.head? then ['_', c] else [c]) ++ amendedCamelSub (some c) rest

/-- The pipeline described by the amended claim C6. -/
def snakeCaseAmended (l : List Char) : List Char :=
  (amendedCamelSub none (removeDashes l)).map pyLowerChar

theorem camelBoundary_eq_amended (prev : Option Char) (c : Char) (next : Option Char) :
    camelBoundary prev c next = amendedBoundary prev c next := by
  cases prev with
  | none => rfl
  | some p =>
    show ((p != '\n') && ((isLowerAZ p && isUpperAZ c) || (isUpperAZ c && optIsLowerAZ next)))
        = (isUpperAZ c && (isLowerAZ p || ((p != '\n') && optIsLowerAZ next)))
    cases hn : (p != '\n') with
    | false =>
      have hp : p = '\n' := bne_eq_false_iff_eq.mp hn
      subst hp
      have hl : isLowerAZ '\n' = false := by decide
      simp [hl]
    | true =>
      cases hl : isLowerAZ p <;> cases hu : isUpperAZ c <;>
        cases hx : optIsLowerAZ next <;> simp [hl, hu, hx]

theorem camelSub_eq_amended (prev : Option Char) (l : List Char) :
    camelSub prev l = amendedCamelSub prev l := by
  induction l generalizing prev with
  | nil => rfl
  | cons c rest ih =>
    show (if camelBoundary prev c rest.head? then ['_', c] else [c]) ++ camelSub (some c) rest
        = (if amendedBoundary prev c rest.head? then ['_', c] else [c]) ++ amendedCamelSub (some c) rest
    rw [camelBoundary_eq_amended, ih]

theorem camelSub_no_dash :
    ∀ (l : List Char) (prev : Option Char), (∀ c ∈ l, c ≠ '-') →
      ∀ c ∈ camelSub prev l, c ≠ '-' := by
  intro l
  induction l with
  | nil => intro prev h c hc; simp [camelSub] at hc
  | cons a rest ih =>
    intro prev h c hc
    rw [camelSub] at hc
    rcases List.mem_append.mp hc with hmem | hmem
    · have ha : a ≠ '-' := h a (List.mem_cons_self a rest)
      by_cases hb : camelBoundary prev a rest.head? = true
      · rw [if_pos hb] at hmem
        simp at hmem
        rcases hmem with h1 | h1
        · subst h1; decide
        · subst h1; exact ha
      · rw [if_neg hb] at hmem
        simp at hmem
        subst hmem; exact ha
    · exact ih (some a) (fun d hd => h d (List.mem_cons_of_mem a hd)) c hmem

theorem map_dashToUnderscore_id (l : List Char) (h : ∀ c ∈ l, c ≠ '-') :
    l.map dashToUnderscore = l := by
  induction l with
  | nil => rfl
  | cons a rest ih =>
    rw [List.map_cons, ih (fun d hd => h d (List.mem_cons_of_mem a hd))]
    rw [dashToUnderscore, if_neg (h a (List.mem_cons_self a rest))]

/-- The counterexample input for C6. -/
def snakeCounterInput : List Char := ['a', '\n', 'A', 'b']

/-- C6 counterexample: on `"a\nAb"` the capital `A` is not the first
character and is immediately followed by a lowercase letter, so the claim's
pipeline inserts an underscore before it, but `to_snake_case` does not (the
lookbehind `(?<=.)` does not match the preceding newline): the code returns
`"a\nab"` while the claim's description yields `"a\n_ab"`. -/
theorem to_snake_case_claim_counterexample :
    to_snake_case snakeCounterInput = ['a', '\n', 'a', 'b'] ∧
    snakeCaseClaim snakeCounterInput = ['a', '\n', '_', 'a', 'b'] ∧
    to_snake_case snakeCounterInput ≠ snakeCaseClaim snakeCounterInput := by
  refine ⟨by decide, by decide, by decide⟩

/-- C6 (amended): `to_snake_case` first deletes all hyphens, then inserts
an underscore immediately before each capital letter that is either
preceded by a lowercase letter, or is preceded by a character other than a
newline and immediately followed by a lowercase letter, then lowercases the
whole result; consecutive capitals get a boundary only at the transition
into a following lowercase letter, so `to_snake_case("HTTPServer")` is
`"http_server"` and `to_snake_case("myHTTPServer")` is `"my_http_server"`. -/
theorem to_snake_case_spec :
    (∀ l : List Char, to_snake_case l = snakeCaseAmended l) ∧
    to_snake_case "HTTPServer".data = "http_server".data ∧
    to_snake_case "myHTTPServer".data = "my_http_server".data := by
  refine ⟨fun l => ?_, by decide, by decide⟩
  rw [to_snake_case, snakeCaseAmended, ← camelSub_eq_amended]
  rw [map_dashToUnderscore_id]
  exact camelSub_no_dash (removeDashes l) none (fun c hc =>
    bne_iff_ne.mp (List.mem_filter.mp hc).2)

/-- The line-boundary characters of Python `str.splitlines`. -/
def lineBreakChars : List Char :=
  ['\n', '\r', Char.ofNat 0x0b, Char.ofNat 0x0c, Char.ofNat 0x1c, Char.ofNat 0x1d,
   Char.ofNat 0x1e, Char.ofNat 0x85, Char.ofNat 0x2028, Char.ofNat 0x2029]

def isLineBreak (c : Char) : Bool := lineBreakChars.contains c

/-- One pass of Python `str.splitlines` over a non-empty remainder: `acc`
holds the reversed current line; a `\r` immediately followed by `\n` counts
as a single boundary; a trailing boundary does not produce a final empty
line. -/
def splitGo (acc : List Char) : List Char → List (List Char)
  | [] => [acc.reverse]
  | c :: rest =>
    if isLineBreak c then
      if c = '\r' then
        match rest with
        | [] => [acc.reverse]
        | d :: t =>
          if d = '\n' then
            match t with
            | [] => [acc.reverse]
            | e :: t2 => acc.reverse :: splitGo [] (e :: t2)
          else acc.reverse :: splitGo [] (d :: t)
      else
        match rest with
        | [] => [acc.reverse]
        | d :: t => acc.reverse :: splitGo [] (d :: t)
    else splitGo (c :: acc) rest

/-- Python `str.splitlines` (an empty string yields no lines). -/
def pySplitlines : List Char → List (List Char)
  | [] => []
  | c :: rest => splitGo [] (c :: rest)

/-- Position of the first occurrence of `delim` in `line`, if any
(`line.find(delim)` restricted to the found case); the empty delimiter
occurs at position `0` of every line. -/
def posOf (line delim : List Char) : Option Nat :=
  (List.range (line.length + 1)).find? (fun i => delim.isPrefixOf (line.drop i))

/-- Python `str.find`: the first occurrence position, or `-1`. -/
def pyFind (line delim : List Char) : Int :=
  match posOf line delim with
  | some i => (i : Int)
  | none => -1

/-- Python `max()` over a list, failing on an empty list. -/
def maxInt : List Int → Option Int
  | [] => none
  | x :: xs => some (xs.foldl max x)

/-- Python `str.rjust(width)` with spaces. -/
def pyRjust (l : List Char) (w : Int) : List Char :=
  List.replicate (w - (l.length : Int)).toNat ' ' ++ l

/-- Embedding of `' ' * n` for a possibly negative Python int `n`. -/
def intSpaces (n : Int) : List Char := List.replicate n.toNat ' '

/-- The per-line transformation of `text_align_delimiter`. -/
def alignLine (delimiter : List Char) (maxPos : Int) (flag : Bool) (line : List Char) :
    List Char :=
  if pyFind line delimiter ≠ -1 then
    pyRjust (line.take (pyFind line delimiter).toNat) maxPos ++
      line.drop (pyFind line delimiter).toNat
  else if (decide (line ≠ [])) && flag then
    intSpaces (maxPos + (delimiter.length : Int)) ++ line
  else line

/-- Embedding of `text_align_delimiter`: the maximum is taken over the `find` results of
ALL lines (`-1` included for lines without the delimiter); `max()` raises
only when the text splits into no lines, which is modelled by `none`. -/
def text_align_delimiter (text delimiter : List Char) (flag : Bool) : Option (List Char) :=
  match maxInt ((pySplitlines text).map (fun line => pyFind line delimiter)) with
  | none => none
  | some maxPos =>
    some (List.intercalate ['\n']
      ((pySplitlines text).map (alignLine delimiter maxPos flag)))

/-- The per-line transformation as §4.4 of the specification words it. -/
def specAlignLine (delimiter : List Char) (maxPos : Nat) (flag : Bool) (line : List Char) :
    List Char :=
  match posOf line delimiter with
  | some p => List.replicate (maxPos - p) ' ' ++ line
  | none =>
    if line ≠ [] ∧ flag = true then List.replicate (maxPos + delimiter.length) ' ' ++ line
    else line

/-- The maximum first-occurrence position over the matching lines only, as
the specification describes it. -/
def specMaxPos (lines : List (List Char)) (delimiter : List Char) : Nat :=
  (lines.filterMap (fun l => posOf l delimiter)).foldl max 0

/-- The output described by the specification for `text_align_delimiter`
when at least one line contains the delimiter. -/
def specAlignDelimiter (text delimiter : List Char) (flag : Bool) : List Char :=
  List.intercalate ['\n'] ((pySplitlines text).map
    (specAlignLine delimiter (specMaxPos (pySplitlines text) delimiter) flag))

theorem foldl_max_spec {α : Type} [LinearOrder α] :
    ∀ (xs : List α) (x : α),
      x ≤ xs.foldl max x ∧ (xs.foldl max x = x ∨ xs.foldl max x ∈ xs) ∧
        (∀ y ∈ xs, y ≤ xs.foldl max x) := by
  intro xs
  induction xs with
  | nil => intro x; exact ⟨le_refl x, Or.inl rfl, by simp⟩
  | cons a t ih =>
    intro x
    have h := ih (max x a)
    rw [List.foldl_cons]
    refine ⟨le_trans (le_max_left x a) h.1, ?_, ?_⟩
    · rcases h.2.1 with he | hm
      · rcases max_choice x a with hc | hc
        · exact Or.inl (by rw [he, hc])
        · exact Or.inr (by rw [he, hc]; exact List.mem_cons_self a t)
      · exact Or.inr (List.mem_cons_of_mem a hm)
    · intro y hy
      rcases List.mem_cons.mp hy with rfl | hm
      · exact le_trans (le_max_right x y) h.1
      · exact h.2.2 y hm

theorem maxInt_spec (L : List Int) (h : L ≠ []) :
    ∃ M, maxInt L = some M ∧ M ∈ L ∧ ∀ y ∈ L, y ≤ M := by
  match L with
  | [] => exact absurd rfl h
  | x :: xs =>
    have hs := foldl_max_spec xs x
    refine ⟨xs.foldl max x, rfl, ?_, ?_⟩
    · rcases hs.2.1 with he | hm
      · rw [he]; exact List.mem_cons_self x xs
      · exact List.mem_cons_of_mem x hm
    · intro y hy
      rcases List.mem_cons.mp hy with rfl | hm
      · exact hs.1
      · exact hs.2.2 y hm

theorem foldl_max_nat_spec (ps : List Nat) (h : ps ≠ []) :
    ps.foldl max 0 ∈ ps ∧ ∀ y ∈ ps, y ≤ ps.foldl max 0 := by
  have hs := foldl_max_spec ps 0
  refine ⟨?_, hs.2.2⟩
  rcases hs.2.1 with he | hm
  · match ps with
    | [] => exact absurd rfl h
    | q :: qs =>
      have hq : q ≤ (q :: qs).foldl max 0 := hs.2.2 q (List.mem_cons_self q qs)
      rw [he] at hq ⊢
      have : q = 0 := Nat.le_zero.mp hq
      rw [← this]
      exact List.mem_cons_self q qs
  · exact hm

theorem posOf_le_length {line delim : List Char} {p : Nat} (h : posOf line delim = some p) :
    p ≤ line.length := by
  have := List.mem_of_find?_eq_some h
  have := List.mem_range.mp this
  omega

theorem splitGo_cons (acc : List Char) (c : Char) (rest : List Char) :
    splitGo acc (c :: rest) =
      if isLineBreak c then
        if c = '\r' then
          match rest with
          | [] => [acc.reverse]
          | d :: t =>
            if d = '\n' then
              match t with
              | [] => [acc.reverse]
              | e :: t2 => acc.reverse :: splitGo [] (e :: t2)
            else acc.reverse :: splitGo [] (d :: t)
        else
          match rest with
          | [] => [acc.reverse]
          | d :: t => acc.reverse :: splitGo [] (d :: t)
      else splitGo (c :: acc) rest := by
  rw [splitGo.eq_def]

theorem splitGo_ne_nil : ∀ (l : List Char) (acc : List Char), splitGo acc l ≠ [] := by
  intro l
  induction l with
  | nil => intro acc; simp [splitGo]
  | cons c rest ih =>
    intro acc
    rw [splitGo_cons]
    split
    · repeat' split
      all_goals simp
    · exact ih (c :: acc)

/-- C3 counterexample: the text `"abc"` has no line containing the
delimiter `": "`, yet `text_align_delimiter` does not fail: since
non-matching lines contribute `-1` to the maximum computation, `max()`
receives a non-empty sequence and the call returns `" abc"`. -/
theorem text_align_delimiter_counterexample :
    ((pySplitlines "abc".data).all (fun l => (posOf l ": ".data).isNone) = true) ∧
    text_align_delimiter "abc".data ": ".data true = some (' ' :: "abc".data) := by
  exact ⟨by decide, by decide⟩

/-- C3 (amended): `text_align_delimiter` fails exactly when the input text
splits into no lines, that is, when the text is empty; for every non-empty
text the maximum computation receives at least one `find` result (`-1` for
non-matching lines) and a result is returned. -/
theorem text_align_delimiter_fail_iff_empty (delimiter : List Char) (flag : Bool) :
    text_align_delimiter [] delimiter flag = none ∧
    ∀ (c : Char) (rest : List Char),
      (text_align_delimiter (c :: rest) delimiter flag).isSome = true := by
  refine ⟨rfl, fun c rest => ?_⟩
  have hne : pySplitlines (c :: rest) ≠ [] := splitGo_ne_nil (c :: rest) []
  have hmapne : (pySplitlines (c :: rest)).map (fun line => pyFind line delimiter) ≠ [] := by
    simpa using hne
  obtain ⟨M, hM, _, _⟩ := maxInt_spec _ hmapne
  simp only [text_align_delimiter, hM]
  rfl

/-- C5: when at least one line of the text contains the delimiter,
`text_align_delimiter` returns exactly the output described by the
specification: matching lines are left-padded so the delimiter starts at
the maximal first-occurrence column, non-matching non-empty lines are
prefixed with `max_pos + len(delimiter)` spaces when the flag is set and
left alone otherwise, empty lines stay empty, and the lines are rejoined
with newlines. -/
theorem text_align_delimiter_spec (text delimiter : List Char) (flag : Bool)
    (h : (pySplitlines text).any (fun l => (posOf l delimiter).isSome) = true) :
    text_align_delimiter text delimiter flag = some (specAlignDelimiter text delimiter flag) := by
  obtain ⟨l₀, hl₀mem, hl₀⟩ := List.any_eq_true.mp h
  obtain ⟨p₀, hp₀⟩ := Option.isSome_iff_exists.mp hl₀
  have hne : pySplitlines text ≠ [] := fun hn => by
    rw [hn] at hl₀mem
    exact absurd hl₀mem (List.not_mem_nil l₀)
  have hmapne : (pySplitlines text).map (fun line => pyFind line delimiter) ≠ [] := by
    simpa using hne
  obtain ⟨M, hM, hMmem, hMub⟩ := maxInt_spec _ hmapne
  have hpsne : (pySplitlines text).filterMap (fun l => posOf l delimiter) ≠ [] := by
    have hmem : p₀ ∈ (pySplitlines text).filterMap (fun l => posOf l delimiter) :=
      List.mem_filterMap.mpr ⟨l₀, hl₀mem, hp₀⟩
    intro hn
    rw [hn] at hmem
    exact absurd hmem (List.not_mem_nil p₀)
  obtain ⟨hMem', hub'⟩ := foldl_max_nat_spec _ hpsne
  have hMge : ((specMaxPos (pySplitlines text) delimiter : Int)) ≤ M := by
    obtain ⟨l₁, hl₁mem, hl₁⟩ := List.mem_filterMap.mp hMem'
    refine hMub _ (List.mem_map.mpr ⟨l₁, hl₁mem, ?_⟩)
    rw [pyFind, hl₁]
    rfl
  have hMle : M ≤ ((specMaxPos (pySplitlines text) delimiter : Int)) := by
    obtain ⟨l₂, hl₂mem, hl₂⟩ := List.mem_map.mp hMmem
    cases hq : posOf l₂ delimiter with
    | none =>
      have hm1 : M = -1 := by rw [← hl₂, pyFind, hq]
      have hp0 : ((p₀ : Int)) ≤ M :=
        hMub _ (List.mem_map.mpr ⟨l₀, hl₀mem, by rw [pyFind, hp₀]⟩)
      omega
    | some q =>
      have hMq : M = (q : Int) := by rw [← hl₂, pyFind, hq]
      have hqmem : q ∈ (pySplitlines text).filterMap (fun l => posOf l delimiter) :=
        List.mem_filterMap.mpr ⟨l₂, hl₂mem, hq⟩
      have := hub' q hqmem
      rw [hMq]
      exact_mod_cast this
  have hMM : M = ((specMaxPos (pySplitlines text) delimiter : Int)) := le_antisymm hMle hMge
  simp only [text_align_delimiter, hM, hMM, specAlignDelimiter]
  congr 2
  apply List.map_congr_left
  intro line hline
  cases hp : posOf line delimiter with
  | some p =>
    have hple : p ≤ specMaxPos (pySplitlines text) delimiter :=
      hub' p (List.mem_filterMap.mpr ⟨line, hline, hp⟩)
    have hplen : p ≤ line.length := posOf_le_length hp
    have hfind : pyFind line delimiter = (p : Int) := by rw [pyFind, hp]
    rw [alignLine, specAlignLine, hp, hfind]
    rw [if_pos (show (p : Int) ≠ -1 by omega)]
    rw [Int.toNat_natCast, pyRjust]
    have hlen : (line.take p).length = p := by rw [List.length_take]; omega
    rw [hlen, Int.toNat_sub]
    rw [List.append_assoc, List.take_append_drop]
  | none =>
    have hfind : pyFind line delimiter = -1 := by rw [pyFind, hp]
    rw [alignLine, specAlignLine, hp, hfind]
    rw [if_neg (show ¬(-1 : Int) ≠ -1 by simp)]
    by_cases hc : line ≠ [] ∧ flag = true
    · rw [if_pos (show (decide (line ≠ []) && flag) = true by simp [hc.1, hc.2])]
      rw [if_pos hc, intSpaces]
      rfl
    · rw [if_neg hc]
      rw [if_neg (show ¬((decide (line ≠ []) && flag) = true) by
        simp only [Bool.and_eq_true, decide_eq_true_eq]
        exact hc)]

/-- Witness for `text_align_delimiter_spec` at a concrete input. -/
theorem text_align_delimiter_spec_witness :
    text_align_delimiter "a: 1\nbb: 2".data ": ".data true
      = some (specAlignDelimiter "a: 1\nbb: 2".data ": ".data true) :=
  text_align_delimiter_spec "a: 1\nbb: 2".data ": ".data true (by decide)

/-- Embedding of `re_pattern.findall(l)` for the pattern of `n` dots with `DOTALL`:
consecutive non-overlapping windows of exactly `n` elements from the start
of `l`, dropping a trailing fragment shorter than `n`.  `fuel` bounds the
recursion; every call below supplies `fuel = l.length`, which suffices
because each step consumes `n ≥ 1` elements. -/
def chunksGo {α : Type} (n : Nat) : Nat → List α → List (List α)
  | 0, _ => []
  | fuel + 1, l =>
    if n = 0 then []
    else if l.length < n then []
    else l.take n :: chunksGo n fuel (l.drop n)

def findallChunks {α : Type} (n : Nat) (l : List α) : List (List α) :=
  chunksGo n l.length l

/-- Embedding of `extract_ngrams`: one non-overlapping scan per anchor offset
`0, ..., ngram_len - 1`, each over the suffix starting at its offset, with
the scans concatenated in offset order. -/
def extract_ngrams {α : Type} (l : List α) (n : Nat) : List (List α) :=
  (List.range n).flatMap (fun i => findallChunks n (l.drop i))

/-- One scan group as the claim describes it: the `k`-th window of the
offset-`i` scan starts at position `i + n*k`, and there are
`(len - i) / n` full windows. -/
def scanGroup {α : Type} (l : List α) (n i : Nat) : List (List α) :=
  (List.range ((l.length - i) / n)).map (fun k => (l.drop (i + n * k)).take n)

theorem chunksGo_eq (α : Type) (n : Nat) (hn : 1 ≤ n) :
    ∀ (fuel : Nat) (l : List α), l.length ≤ fuel →
      chunksGo n fuel l = (List.range (l.length / n)).map (fun k => (l.drop (n * k)).take n) := by
  intro fuel
  induction fuel with
  | zero =>
    intro l hl
    have : l.length = 0 := Nat.le_zero.mp hl
    rw [chunksGo, this, Nat.zero_div]
    rfl
  | succ f ih =>
    intro l hl
    rw [chunksGo, if_neg (by omega)]
    by_cases hlen : l.length < n
    · rw [if_pos hlen, Nat.div_eq_of_lt hlen]
      rfl
    · rw [if_neg hlen]
      have hrec := ih (l.drop n) (by rw [List.length_drop]; omega)
      rw [hrec]
      have hdiv : l.length / n = (l.drop n).length / n + 1 := by
        rw [List.length_drop]
        rw [Nat.div_eq_sub_div (by omega) (by omega)]
      rw [hdiv, List.range_succ_eq_map]
      rw [List.map_cons, List.map_map]
      congr 1
      apply List.map_congr_left
      intro k _
      simp only [Function.comp_apply]
      rw [List.drop_drop]
      congr 2
      rw [Nat.succ_eq_add_one]
      ring

theorem findallChunks_short {α : Type} {n : Nat} {l : List α} (h : l.length < n) :
    findallChunks n l = [] := by
  rw [findallChunks]
  cases hl : l.length with
  | zero => rw [chunksGo]
  | succ k =>
    rw [chunksGo, if_neg (by omega), if_pos (by omega)]

/-- C8: `extract_ngrams` returns the windows grouped by anchor offset (the
non-overlapping windows of the offset-0 scan first, then the offset-1 scan,
and so on up to offset `ngram_len - 1`), dropping any trailing fragment
shorter than `ngram_len` in each scan; in particular
`extract_ngrams("abcde", 2) = ("ab", "cd", "bc", "de")`, and empty input or
`ngram_len` greater than the input length yields an empty result. -/
theorem extract_ngrams_spec :
    (extract_ngrams "abcde".data 2
      = ["ab".data, "cd".data, "bc".data, "de".data]) ∧
    (∀ (l : List Char) (n : Nat), l.length < n → extract_ngrams l n = []) ∧
    (∀ (α : Type) (n : Nat), extract_ngrams ([] : List α) n = []) ∧
    (∀ (α : Type) (l : List α) (n : Nat), 1 ≤ n →
      extract_ngrams l n = (List.range n).flatMap (fun i => scanGroup l n i)) := by
  refine ⟨by decide, ?_, ?_, ?_⟩
  · intro l n h
    rw [extract_ngrams]
    have hz : ∀ i ∈ List.range n, findallChunks n (l.drop i) = [] := by
      intro i _
      apply findallChunks_short
      have := List.length_drop i l
      omega
    rw [List.flatMap_eq_nil_iff.mpr]  -- hmm name check
    intro x hx
    exact hz x hx
  · intro α n
    rw [extract_ngrams]
    rw [List.flatMap_eq_nil_iff.mpr]
    intro x _
    show findallChunks n (List.drop x []) = []
    rw [List.drop_nil]
    rfl
  · intro α l n hn
    rw [extract_ngrams, List.flatMap_def, List.flatMap_def]
    congr 1
    apply List.map_congr_left
    intro i _
    rw [findallChunks, chunksGo_eq α n hn (l.drop i).length (l.drop i) (le_refl _)]
    rw [scanGroup, List.length_drop]
    apply List.map_congr_left
    intro k _
    rw [List.drop_drop]

/-- C10: for every input sequence (characters or bytes), `extract_ngrams`
with `ngram_len = 0` returns the empty result: the anchor-offset range over
zero offsets is empty and no scan is performed. -/
theorem extract_ngrams_len_zero (α : Type) (l : List α) : extract_ngrams l 0 = [] := rfl

/-- Witness for the hypothesis-bearing parts of `extract_ngrams_spec`. -/
theorem extract_ngrams_spec_witness :
    extract_ngrams "abc".data 5 = [] ∧
    extract_ngrams "abc".data 2 = (List.range 2).flatMap (fun i => scanGroup "abc".data 2 i) :=
  ⟨extract_ngrams_spec.2.1 "abc".data 5 (by decide),
   extract_ngrams_spec.2.2.2 Char "abc".data 2 (by decide)⟩

/-- ASCII model of the regex word class `\w` (used by `\b`). -/
def pyIsWordChar (c : Char) : Bool :=
  isUpperAZ c || isLowerAZ c || (48 ≤ charCode c && charCode c ≤ 57) || c = '_'

/-- Whether position `i` of `s` holds a word character (out-of-range
positions count as non-word). -/
def isWordAt (s : List Char) (i : Nat) : Bool :=
  match s[i]? with
  | some c => pyIsWordChar c
  | none => false

/-- The regex `\b` between positions `i - 1` and `i` (only used with
`i ≥ 1`): exactly one of the two neighbouring positions is a word
character. -/
def wordBoundaryAt (s : List Char) (i : Nat) : Bool :=
  isWordAt s (i - 1) != isWordAt s i

/-- The lazy quantifier `.+?` followed by `\b`, starting at position `i`:
the least `k ≥ 1` such that the `k` characters at `i, ..., i + k - 1` exist
and are not newlines (`.` does not match a newline) and a word boundary
follows them.  `fuel` bounds the recursion; all call sites pass
`fuel = s.length`, which suffices since `i` increases at every step. -/
def wbLenFrom (s : List Char) : Nat → Nat → Option Nat
  | 0, _ => none
  | fuel + 1, i =>
    match s[i]? with
    | none => none
    | some c =>
      if c = '\n' then none
      else if wordBoundaryAt s (i + 1) then some 1
      else
        match wbLenFrom s fuel (i + 1) with
        | some k => some (k + 1)
        | none => none

/-- A match of the pattern `var_char(?P<variable_name>.+?)\b` (the
`end_var_char is None` mode) at position `p`: returns the end of the match
and the variable name. -/
def matchAtWB (vc : Char) (s : List Char) (p : Nat) : Option (Nat × List Char) :=
  if s[p]? = some vc then
    match wbLenFrom s s.length (p + 1) with
    | some k => some (p + 1 + k, (s.drop (p + 1)).take k)
    | none => none
  else none

/-- A match of the pattern `var_char[^close]+close` at position `p`.  The
first character of `close` always belongs to the excluded class (the class
is the set of characters of `close`), so the greedy `[^...]+` never
backtracks: a match exists exactly when the maximal run of non-`close`
characters after `var_char` is non-empty and is followed by the literal
`close`. -/
def matchAtDelim (vc : Char) (close : List Char) (s : List Char) (p : Nat) :
    Option (Nat × List Char) :=
  if s[p]? = some vc then
    if ((s.drop (p + 1)).takeWhile (fun c => !(close.contains c))).isEmpty then none
    else
      if close.isPrefixOf
          (s.drop (p + 1 + ((s.drop (p + 1)).takeWhile (fun c => !(close.contains c))).length)) then
        some
          (p + 1 + ((s.drop (p + 1)).takeWhile (fun c => !(close.contains c))).length + close.length,
           (s.drop (p + 1)).takeWhile (fun c => !(close.contains c)))
      else none
  else none

/-- Embedding of `end_var_char or var_char`: the empty string is the "unspecified"
sentinel, in which case `var_char` doubles as the closing delimiter. -/
def effectiveClose (vc : Char) (evc : List Char) : List Char :=
  if evc.isEmpty then [vc] else evc

/-- One attempted match of the compiled variable pattern at position `p`:
`evc = none` is the `end_var_char=None` word-boundary mode, `evc = some e`
the delimited mode. -/
def matchVarAt (vc : Char) (evc : Option (List Char)) (s : List Char) (p : Nat) :
    Option (Nat × List Char) :=
  match evc with
  | none => matchAtWB vc s p
  | some e => matchAtDelim vc (effectiveClose vc e) s p

/-- Embedding of `var_pattern.search(string, pos=search_start_offset)`: the leftmost
match at a position `≥ pos`, as (start, end, variable name). -/
def searchVar (vc : Char) (evc : Option (List Char)) (s : List Char) (pos : Nat) :
    Option (Nat × Nat × List Char) :=
  (List.range' pos (s.length - pos)).findSome? (fun p =>
    (matchVarAt vc evc s p).map (fun q => (p, q.1, q.2)))

/-- Embedding of `variable_name in expand_map` and `expand_map[variable_name]` over an
association list (dict keys are unique, so first-match lookup agrees). -/
def lookupMap (m : List (List Char × List Char)) (k : List Char) : Option (List Char) :=
  match m with
  | [] => none
  | (a, b) :: rest => if a = k then some b else lookupMap rest k

/-- Lowercase the variable name before lookup when not case-sensitive. -/
def normalizeName (cs : Bool) (nm : List Char) : List Char :=
  if cs then nm else nm.map pyLowerChar

/-- The `while match := var_pattern.search(...)` loop of `expand_var`:
either splice in the mapped value and resume at the end of the replacement,
or raise `KeyError` (modelled as `Except.error` carrying the looked-up
name), or leave the match and resume just past it.  `none` models running
out of fuel; `expandLoop_isSome` shows the fuel passed by `expand_var`
suffices. -/
def expandLoop (m : List (List Char × List Char)) (vc : Char) (evc : Option (List Char))
    (cs ex : Bool) : Nat → List Char → Nat → Option (Except (List Char) (List Char))
  | 0, _, _ => none
  | fuel + 1, s, pos =>
    match searchVar vc evc s pos with
    | none => some (Except.ok s)
    | some (st, en, nm) =>
      match lookupMap m (normalizeName cs nm) with
      | some v =>
        expandLoop m vc evc cs ex fuel (s.take st ++ v ++ s.drop en) (s.take st ++ v).length
      | none =>
        if ex then some (Except.error (normalizeName cs nm))
        else expandLoop m vc evc cs ex fuel s en

/-- Embedding of `expand_var(string, expand_map, var_char, end_var_char, case_sensitive,
exception_on_unexpanded)`.  Map values are already strings (`str(...)` of a
string is itself). -/
def expand_var (s : List Char) (m : List (List Char × List Char)) (vc : Char)
    (evc : Option (List Char)) (cs ex : Bool) : Option (Except (List Char) (List Char)) :=
  expandLoop m vc evc cs ex (s.length + 1) s 0

theorem findSome?_exists {α β : Type} :
    ∀ (l : List α) (f : α → Option β) (b : β),
      l.findSome? f = some b → ∃ a, a ∈ l ∧ f a = some b := by
  intro l f b
  induction l with
  | nil => intro h; exact absurd h (by simp)
  | cons a t ih =>
    intro h
    rw [List.findSome?_cons] at h
    cases hfa : f a with
    | some c =>
      rw [hfa] at h
      simp at h
      exact ⟨a, List.mem_cons_self a t, by rw [hfa, h]⟩
    | none =>
      rw [hfa] at h
      simp at h
      obtain ⟨x, hx, hfx⟩ := ih h
      exact ⟨x, List.mem_cons_of_mem a hx, hfx⟩

theorem isPrefixOf_length_le {α : Type} [BEq α] :
    ∀ (a b : List α), a.isPrefixOf b = true → a.length ≤ b.length := by
  intro a
  induction a with
  | nil => intro b _; simp
  | cons x xs ih =>
    intro b h
    cases b with
    | nil => exact absurd h (by simp [List.isPrefixOf])
    | cons y ys =>
      simp only [List.isPrefixOf, Bool.and_eq_true] at h
      have := ih ys h.2
      simp only [List.length_cons]
      omega

theorem getElem?_lt_length {α : Type} {s : List α} {i : Nat} {c : α}
    (h : s[i]? = some c) : i < s.length := by
  by_cases hi : i < s.length
  · exact hi
  · rw [List.getElem?_eq_none (by omega)] at h
    exact absurd h (by simp)

theorem wbLenFrom_spec (s : List Char) :
    ∀ (fuel i k : Nat), wbLenFrom s fuel i = some k →
      1 ≤ k ∧ i + k ≤ s.length ∧ wordBoundaryAt s (i + k) = true ∧
      (∀ q, i < q → q < i + k → wordBoundaryAt s q = false) ∧
      (∀ j, i ≤ j → j < i + k → s[j]? ≠ some '\n') := by
  intro fuel
  induction fuel with
  | zero => intro i k h; exact absurd h (by simp [wbLenFrom])
  | succ f ih =>
    intro i k h
    rw [wbLenFrom] at h
    cases hc : s[i]? with
    | none => rw [hc] at h; simp at h
    | some c =>
      rw [hc] at h
      simp only at h
      by_cases hnl : c = '\n'
      · rw [if_pos hnl] at h; simp at h
      · rw [if_neg hnl] at h
        by_cases hb : wordBoundaryAt s (i + 1) = true
        · rw [if_pos hb] at h
          simp at h
          obtain rfl : k = 1 := h.symm
          have hilen : i < s.length := getElem?_lt_length hc
          refine ⟨le_refl 1, by omega, hb, ?_, ?_⟩
          · intro q h1 h2; omega
          · intro j h1 h2
            have hji : j = i := by omega
            subst hji
            rw [hc]
            intro hcon
            exact hnl (Option.some.inj hcon)
        · rw [if_neg hb] at h
          cases hr : wbLenFrom s f (i + 1) with
          | none => rw [hr] at h; simp at h
          | some k' =>
            rw [hr] at h
            simp at h
            obtain rfl : k = k' + 1 := h.symm
            obtain ⟨h1, h2, h3, h4, h5⟩ := ih (i + 1) k' hr
            refine ⟨by omega, by omega, ?_, ?_, ?_⟩
            · have heq : i + (k' + 1) = (i + 1) + k' := by omega
              rw [heq]; exact h3
            · intro q hq1 hq2
              by_cases hq : q = i + 1
              · subst hq
                cases hbb : wordBoundaryAt s (i + 1) with
                | false => rfl
                | true => exact absurd hbb hb
              · exact h4 q (by omega) (by omega)
            · intro j hj1 hj2
              by_cases hji : j = i
              · subst hji
                rw [hc]
                intro hcon
                exact hnl (Option.some.inj hcon)
              · exact h5 j (by omega) (by omega)

theorem matchAtWB_spec {vc : Char} {s : List Char} {p en : Nat} {nm : List Char}
    (h : matchAtWB vc s p = some (en, nm)) :
    s[p]? = some vc ∧ 1 ≤ nm.length ∧ en = p + 1 + nm.length ∧ en ≤ s.length ∧
    nm = (s.drop (p + 1)).take (en - (p + 1)) ∧
    wordBoundaryAt s en = true ∧
    (∀ q, p + 1 < q → q < en → wordBoundaryAt s q = false) := by
  rw [matchAtWB] at h
  by_cases hc : s[p]? = some vc
  · rw [if_pos hc] at h
    cases hw : wbLenFrom s s.length (p + 1) with
    | none => rw [hw] at h; simp at h
    | some k =>
      rw [hw] at h
      simp at h
      obtain ⟨hen, hnm⟩ := h
      obtain ⟨hk1, hk2, hb, hmin, _⟩ := wbLenFrom_spec s s.length (p + 1) k hw
      have hlen : nm.length = k := by
        rw [← hnm, List.length_take, List.length_drop]
        omega
      refine ⟨hc, by omega, by omega, by omega, ?_, ?_, ?_⟩
      · rw [← hnm, ← hen]
        congr 1
        omega
      · have heq : en = (p + 1) + k := by omega
        rw [heq]; exact hb
      · intro q hq1 hq2
        exact hmin q (by omega) (by omega)
  · rw [if_neg hc] at h; simp at h

theorem matchAtDelim_bounds {vc : Char} {close s : List Char} {p en : Nat} {nm : List Char}
    (hcl : close ≠ []) (h : matchAtDelim vc close s p = some (en, nm)) :
    p + 2 ≤ en ∧ en ≤ s.length ∧ nm ≠ [] := by
  rw [matchAtDelim] at h
  by_cases hc : s[p]? = some vc
  · rw [if_pos hc] at h
    by_cases hrun :
        ((s.drop (p + 1)).takeWhile (fun c => !(close.contains c))).isEmpty = true
    · rw [if_pos hrun] at h; simp at h
    · rw [if_neg hrun] at h
      by_cases hpre : close.isPrefixOf
          (s.drop (p + 1 +
            ((s.drop (p + 1)).takeWhile (fun c => !(close.contains c))).length)) = true
      · rw [if_pos hpre] at h
        have hpair := Option.some.inj h
        have hen :
            p + 1 + ((s.drop (p + 1)).takeWhile (fun c => !(close.contains c))).length +
              close.length = en :=
          congrArg Prod.fst hpair
        have hnm : ((s.drop (p + 1)).takeWhile (fun c => !(close.contains c))) = nm :=
          congrArg Prod.snd hpair
        have hrunlen :
            1 ≤ ((s.drop (p + 1)).takeWhile (fun c => !(close.contains c))).length := by
          have hne : ((s.drop (p + 1)).takeWhile (fun c => !(close.contains c))) ≠ [] :=
            fun he => hrun (by rw [he]; rfl)
          have := List.length_pos.mpr hne
          omega
        have hclose : 1 ≤ close.length := by
          have := List.length_pos.mpr hcl
          omega
        have hple := isPrefixOf_length_le close _ hpre
        rw [List.length_drop] at hple
        have hplen : p < s.length := getElem?_lt_length hc
        refine ⟨by omega, by omega, ?_⟩
        rw [← hnm]
        exact fun he => hrun (by rw [he]; rfl)
      · rw [if_neg hpre] at h; simp at h
  · rw [if_neg hc] at h; simp at h

theorem effectiveClose_ne_nil (vc : Char) (e : List Char) : effectiveClose vc e ≠ [] := by
  rw [effectiveClose]
  by_cases he : e.isEmpty = true
  · rw [if_pos he]; simp
  · rw [if_neg he]
    exact fun hn => he (by rw [hn]; rfl)

theorem matchVarAt_bounds {vc : Char} {evc : Option (List Char)} {s : List Char} {p en : Nat}
    {nm : List Char} (h : matchVarAt vc evc s p = some (en, nm)) :
    p + 2 ≤ en ∧ en ≤ s.length := by
  cases evc with
  | none =>
    obtain ⟨_, h1, h2, h3, _⟩ := matchAtWB_spec h
    exact ⟨by omega, h3⟩
  | some e =>
    have hb := matchAtDelim_bounds (effectiveClose_ne_nil vc e) h
    exact ⟨hb.1, hb.2.1⟩

theorem searchVar_bounds {vc : Char} {evc : Option (List Char)} {s : List Char}
    {pos st en : Nat} {nm : List Char} (h : searchVar vc evc s pos = some (st, en, nm)) :
    pos ≤ st ∧ st + 2 ≤ en ∧ en ≤ s.length := by
  obtain ⟨p, hpmem, hp⟩ := findSome?_exists _ _ _ h
  cases hm : matchVarAt vc evc s p with
  | none => rw [hm] at hp; simp at hp
  | some q =>
    obtain ⟨en', nm'⟩ := q
    rw [hm] at hp
    simp at hp
    obtain ⟨hp1, hp2, hp3⟩ := hp
    obtain ⟨i, hilt, hieq⟩ := List.mem_range'.mp hpmem
    have hbm := matchVarAt_bounds hm
    subst hp1
    omega

theorem expandLoop_isSome (m : List (List Char × List Char)) (vc : Char)
    (evc : Option (List Char)) (cs ex : Bool) :
    ∀ (fuel : Nat) (s : List Char) (pos : Nat), s.length - pos < fuel →
      (expandLoop m vc evc cs ex fuel s pos).isSome = true := by
  intro fuel
  induction fuel with
  | zero => intro s pos h; omega
  | succ f ih =>
    intro s pos h
    cases hs : searchVar vc evc s pos with
    | none => simp [expandLoop, hs]
    | some trip =>
      obtain ⟨st, en, nm⟩ := trip
      have hb := searchVar_bounds hs
      cases hl : lookupMap m (normalizeName cs nm) with
      | some v =>
        simp only [expandLoop, hs, hl]
        apply ih
        simp only [List.length_append, List.length_drop, List.length_take]
        omega
      | none =>
        cases ex with
        | true => simp [expandLoop, hs, hl]
        | false =>
          simp only [expandLoop, hs, hl, if_neg]
          apply ih
          omega

theorem expandLoop_false_no_error (m : List (List Char × List Char)) (vc : Char)
    (evc : Option (List Char)) (cs : Bool) :
    ∀ (fuel : Nat) (s : List Char) (pos : Nat) (e : List Char),
      expandLoop m vc evc cs false fuel s pos ≠ some (Except.error e) := by
  intro fuel
  induction fuel with
  | zero => intro s pos e h; simp [expandLoop] at h
  | succ f ih =>
    intro s pos e h
    cases hs : searchVar vc evc s pos with
    | none =>
      rw [expandLoop] at h
      rw [hs] at h
      simp at h
    | some trip =>
      obtain ⟨st, en, nm⟩ := trip
      cases hl : lookupMap m (normalizeName cs nm) with
      | some v =>
        rw [expandLoop] at h
        rw [hs] at h
        simp only [hl] at h
        exact ih _ _ e h
      | none =>
        rw [expandLoop] at h
        rw [hs] at h
        simp only [hl, Bool.false_eq_true, if_false] at h
        exact ih _ _ e h

theorem expandLoop_error_inv (m : List (List Char × List Char)) (vc : Char)
    (evc : Option (List Char)) (cs ex : Bool) :
    ∀ (fuel : Nat) (s : List Char) (pos : Nat) (e : List Char),
      expandLoop m vc evc cs ex fuel s pos = some (Except.error e) →
      ex = true ∧ lookupMap m e = none := by
  intro fuel
  induction fuel with
  | zero => intro s pos e h; simp [expandLoop] at h
  | succ f ih =>
    intro s pos e h
    cases hs : searchVar vc evc s pos with
    | none =>
      rw [expandLoop] at h
      rw [hs] at h
      simp at h
    | some trip =>
      obtain ⟨st, en, nm⟩ := trip
      cases hl : lookupMap m (normalizeName cs nm) with
      | some v =>
        rw [expandLoop] at h
        rw [hs] at h
        simp only [hl] at h
        exact ih _ _ e h
      | none =>
        rw [expandLoop] at h
        rw [hs] at h
        simp only [hl] at h
        cases ex with
        | true =>
          rw [if_pos rfl] at h
          simp at h
          refine ⟨rfl, ?_⟩
          rw [← h]
          exact hl
        | false =>
          simp only [Bool.false_eq_true, if_false] at h
          exact ih _ _ e h

/-- C4: `expand_var` terminates on every input: the loop, run with fuel
`len(string) + 1`, never exhausts its fuel (each iteration either ends the
scan or strictly advances, and replacement text is never re-scanned), so a
result is always produced — even for a self-referential map, as the second
conjunct shows on `expand_var("%A%", {"A": "%A%"})`. -/
theorem expand_var_terminates :
    (∀ (s : List Char) (m : List (List Char × List Char)) (vc : Char)
        (evc : Option (List Char)) (cs ex : Bool),
      (expand_var s m vc evc cs ex).isSome = true) ∧
    expand_var "%A%".data [("A".data, "%A%".data)] '%' (some []) true false
      = some (Except.ok "%A%".data) :=
  ⟨fun s m vc evc cs ex => expandLoop_isSome m vc evc cs ex (s.length + 1) s 0 (by omega),
   by rfl⟩

/-- C2: the error behaviour of `expand_var`, in both directions.  Forward:
at every reachable scan state (any string and resume offset, so also after
earlier replacements), if the current match's (normalized) variable name is
absent from the map and `exception_on_unexpanded` is true, the loop — and
hence the call, as the fifth conjunct instantiates for the first match of a
call — fails immediately with a lookup error carrying exactly that name.
Converse: any returned error carries a name absent from the map and can
only occur when the flag is true.  With the flag false the call always
returns a string, and an absent matched name leaves the string untouched,
resuming just past the match (so the literal placeholder remains in the
output); no other error is produced. -/
theorem expand_var_error_spec :
    (∀ (s : List Char) (m : List (List Char × List Char)) (vc : Char)
        (evc : Option (List Char)) (cs ex : Bool) (e : List Char),
      expand_var s m vc evc cs ex = some (Except.error e) →
        ex = true ∧ lookupMap m e = none) ∧
    (∀ (s : List Char) (m : List (List Char × List Char)) (vc : Char)
        (evc : Option (List Char)) (cs : Bool),
      ∃ r, expand_var s m vc evc cs false = some (Except.ok r)) ∧
    (∀ (m : List (List Char × List Char)) (vc : Char) (evc : Option (List Char))
        (cs : Bool) (fuel : Nat) (s : List Char) (pos st en : Nat) (nm : List Char),
      searchVar vc evc s pos = some (st, en, nm) →
      lookupMap m (normalizeName cs nm) = none →
      expandLoop m vc evc cs false (fuel + 1) s pos = expandLoop m vc evc cs false fuel s en) ∧
    (∀ (m : List (List Char × List Char)) (vc : Char) (evc : Option (List Char))
        (cs : Bool) (fuel : Nat) (s : List Char) (pos st en : Nat) (nm : List Char),
      searchVar vc evc s pos = some (st, en, nm) →
      lookupMap m (normalizeName cs nm) = none →
      expandLoop m vc evc cs true (fuel + 1) s pos
        = some (Except.error (normalizeName cs nm))) ∧
    (∀ (s : List Char) (m : List (List Char × List Char)) (vc : Char)
        (evc : Option (List Char)) (cs : Bool) (st en : Nat) (nm : List Char),
      searchVar vc evc s 0 = some (st, en, nm) →
      lookupMap m (normalizeName cs nm) = none →
      expand_var s m vc evc cs true = some (Except.error (normalizeName cs nm))) := by
  have hforward : ∀ (m : List (List Char × List Char)) (vc : Char)
      (evc : Option (List Char)) (cs : Bool) (fuel : Nat) (s : List Char)
      (pos st en : Nat) (nm : List Char),
      searchVar vc evc s pos = some (st, en, nm) →
      lookupMap m (normalizeName cs nm) = none →
      expandLoop m vc evc cs true (fuel + 1) s pos
        = some (Except.error (normalizeName cs nm)) := by
    intro m vc evc cs fuel s pos st en nm hs hl
    rw [expandLoop]
    rw [hs]
    simp only [hl, if_true]
  refine ⟨?_, ?_, ?_, ?_, ?_⟩
  · intro s m vc evc cs ex e h
    exact expandLoop_error_inv m vc evc cs ex (s.length + 1) s 0 e h
  · intro s m vc evc cs
    have hsome := expandLoop_isSome m vc evc cs false (s.length + 1) s 0 (by omega)
    cases hv : expand_var s m vc evc cs false with
    | none => rw [expand_var] at hv; rw [hv] at hsome; simp at hsome
    | some r =>
      cases r with
      | ok t => exact ⟨t, rfl⟩
      | error e =>
        exfalso
        apply expandLoop_false_no_error m vc evc cs (s.length + 1) s 0 e
        have h2 : expand_var s m vc evc cs false
            = expandLoop m vc evc cs false (s.length + 1) s 0 := rfl
        rw [← h2]
        exact hv
  · intro m vc evc cs fuel s pos st en nm hs hl
    rw [expandLoop]
    rw [hs]
    simp only [hl, Bool.false_eq_true, if_false]
  · exact hforward
  · intro s m vc evc cs st en nm hs hl
    have h2 : expand_var s m vc evc cs true
        = expandLoop m vc evc cs true (s.length + 1) s 0 := rfl
    rw [h2]
    exact hforward m vc evc cs s.length s 0 st en nm hs hl

/-- Witness for `expand_var_error_spec` at concrete inputs: an unexpanded
`%A%` with the exception flag raises a lookup error carrying `A` (both via
one loop step and via the whole call), and with the flag off one loop step
skips just past the match. -/
theorem expand_var_error_spec_witness :
    (true = true ∧ lookupMap [] "A".data = none) ∧
    expandLoop [] '%' (some []) true false 2 "%A%".data 0
      = expandLoop [] '%' (some []) true false 1 "%A%".data 3 ∧
    expandLoop [] '%' (some []) true true 2 "%A%".data 0
      = some (Except.error (normalizeName true "A".data)) ∧
    expand_var "%A%".data [] '%' (some []) true true
      = some (Except.error (normalizeName true "A".data)) :=
  ⟨expand_var_error_spec.1 "%A%".data [] '%' (some []) true true "A".data (by rfl),
   expand_var_error_spec.2.2.1 [] '%' (some []) true 1 "%A%".data 0 0 3 "A".data
     (by decide) (by decide),
   expand_var_error_spec.2.2.2.1 [] '%' (some []) true 1 "%A%".data 0 0 3 "A".data
     (by decide) (by decide),
   expand_var_error_spec.2.2.2.2 "%A%".data [] '%' (some []) true 0 3 "A".data
     (by decide) (by decide)⟩

/-- C7: in the `end_var_char=None` mode, every match found by the search is
`var_char` followed by a run of characters that extends exactly up to a
trailing word boundary: the name is non-empty, the match consumes no
right-hand delimiter (its end is `start + 1 + len(name)`), a word boundary
follows the run, and no word boundary occurs inside the run (so the run is
the longest one that is terminated by its trailing word boundary), and that
run is the variable name reported for the lookup. -/
theorem searchVar_wb_spec (vc : Char) (s : List Char) (pos st en : Nat) (nm : List Char)
    (h : searchVar vc none s pos = some (st, en, nm)) :
    pos ≤ st ∧ s[st]? = some vc ∧ nm ≠ [] ∧
    nm = (s.drop (st + 1)).take (en - (st + 1)) ∧
    en = st + 1 + nm.length ∧ en ≤ s.length ∧
    wordBoundaryAt s en = true ∧
    (∀ q, st + 1 < q → q < en → wordBoundaryAt s q = false) := by
  obtain ⟨p, hpmem, hp⟩ := findSome?_exists _ _ _ h
  cases hm : matchVarAt vc none s p with
  | none => rw [hm] at hp; simp at hp
  | some q =>
    obtain ⟨en', nm'⟩ := q
    have hmwb : matchAtWB vc s p = some (en', nm') := hm
    rw [hm] at hp
    have htrip : (p, en', nm') = (st, en, nm) := Option.some.inj hp
    have hst : p = st := congrArg (fun t => t.1) htrip
    have hen : en' = en := congrArg (fun t => t.2.1) htrip
    have hnmq : nm' = nm := congrArg (fun t => t.2.2) htrip
    subst hst
    subst hen
    subst hnmq
    obtain ⟨i, _, hieq⟩ := List.mem_range'.mp hpmem
    obtain ⟨h1, h2, h3, h4, h5, h6, h7⟩ := matchAtWB_spec hmwb
    refine ⟨by omega, h1, ?_, h5, h3, h4, h6, h7⟩
    intro hnil
    rw [hnil] at h2
    simp at h2

/-- Witness for `searchVar_wb_spec`: on `"x%foo bar"` with `var_char='%'`
the match starts at position 1, the name is `"foo"` (ending at the word
boundary before the space), and the match end is 5. -/
theorem searchVar_wb_spec_witness :
    0 ≤ 1 ∧ "x%foo bar".data[1]? = some '%' ∧ "foo".data ≠ [] ∧
    "foo".data = ("x%foo bar".data.drop (1 + 1)).take (5 - (1 + 1)) ∧
    5 = 1 + 1 + "foo".data.length ∧ 5 ≤ "x%foo bar".data.length ∧
    wordBoundaryAt "x%foo bar".data 5 = true ∧
    (∀ q, 1 + 1 < q → q < 5 → wordBoundaryAt "x%foo bar".data q = false) :=
  searchVar_wb_spec '%' "x%foo bar".data 0 1 5 "foo".data (by decide)

/-- C1 counterexample: with the defaults, `"%B%"` occurs in `"%A%B%"` at
offset 2, its name `B` is a key of the map, and yet the call returns the
input unchanged — the scan's first match `%A%` (name absent, exception flag
off) consumes the middle `%`, so the overlapping keyed occurrence is never
replaced. -/
theorem expand_var_default_claim_counterexample :
    expand_var "%A%B%".data [("B".data, "x".data)] '%' (some []) true false
      = some (Except.ok "%A%B%".data) ∧
    lookupMap [("B".data, "x".data)] "B".data = some "x".data ∧
    "B".data ≠ [] ∧ "B".data.all (fun c => c != '%') = true ∧
    (('%' :: "B".data ++ ['%']).isPrefixOf ("%A%B%".data.drop 2)) = true := by
  refine ⟨by rfl, by decide, by decide, by decide, by decide⟩

/-- One attempted occurrence, as the amended claim describes it: at
position `p` the string holds `var_char`, then a non-empty maximal run of
non-`var_char` characters, then `var_char` again; specialized to the
default `var_char = '%'`. -/
def occAtDefault (u : List Char) (p : Nat) : Option (Nat × List Char) :=
  if u[p]? = some '%' then
    if ((u.drop (p + 1)).takeWhile (fun d => d != '%')) ≠ [] ∧
        u[p + 1 + ((u.drop (p + 1)).takeWhile (fun d => d != '%')).length]? = some '%' then
      some (p, (u.drop (p + 1)).takeWhile (fun d => d != '%'))
    else none
  else none

/-- The leftmost default-style occurrence in `u`. -/
def findOccDefault (u : List Char) : Option (Nat × List Char) :=
  (List.range u.length).findSome? (occAtDefault u)

theorem occAtDefault_bounds {u : List Char} {q p : Nat} {nm : List Char}
    (h : occAtDefault u q = some (p, nm)) :
    p = q ∧ nm ≠ [] ∧ p + nm.length + 2 ≤ u.length := by
  rw [occAtDefault] at h
  by_cases hc : u[q]? = some '%'
  · rw [if_pos hc] at h
    by_cases hcond : ((u.drop (q + 1)).takeWhile (fun d => d != '%')) ≠ [] ∧
        u[q + 1 + ((u.drop (q + 1)).takeWhile (fun d => d != '%')).length]? = some '%'
    · rw [if_pos hcond] at h
      have hpair := Option.some.inj h
      have hp : q = p := congrArg Prod.fst hpair
      have hnm : ((u.drop (q + 1)).takeWhile (fun d => d != '%')) = nm :=
        congrArg Prod.snd hpair
      have hlt := getElem?_lt_length hcond.2
      refine ⟨hp.symm, ?_, ?_⟩
      · rw [← hnm]; exact hcond.1
      · rw [← hp, ← hnm]; omega
    · rw [if_neg hcond] at h; simp at h
  · rw [if_neg hc] at h; simp at h

theorem findOccDefault_bounds {u : List Char} {p : Nat} {nm : List Char}
    (h : findOccDefault u = some (p, nm)) :
    nm ≠ [] ∧ p + nm.length + 2 ≤ u.length := by
  obtain ⟨q, _, hq⟩ := findSome?_exists _ _ _ h
  have := occAtDefault_bounds hq
  exact ⟨this.2.1, this.2.2⟩

/-- The accumulator-style scanner the amended claim C1 describes:
repeatedly find the leftmost default occurrence, replace it when its name
is a key (never rescanning the spliced-in value), and otherwise skip past
it.  `fuel` bounds the recursion; `scanDefault` passes the length of the
text, which suffices since each step consumes at least two characters. -/
def scanDefaultGo (m : List (List Char × List Char)) : Nat → List Char → List Char
  | 0, u => u
  | fuel + 1, u =>
    match findOccDefault u with
    | none => u
    | some (p, nm) =>
      match lookupMap m nm with
      | some v => u.take p ++ v ++ scanDefaultGo m fuel (u.drop (p + nm.length + 2))
      | none => u.take (p + nm.length + 2) ++ scanDefaultGo m fuel (u.drop (p + nm.length + 2))

def scanDefault (m : List (List Char × List Char)) (u : List Char) : List Char :=
  scanDefaultGo m u.length u

theorem findOccDefault_nil : findOccDefault [] = none := rfl

theorem scanDefaultGo_congr (m : List (List Char × List Char)) :
    ∀ (f1 f2 : Nat) (u : List Char), u.length ≤ f1 → u.length ≤ f2 →
      scanDefaultGo m f1 u = scanDefaultGo m f2 u := by
  intro f1
  induction f1 with
  | zero =>
    intro f2 u h1 h2
    have hu : u = [] := List.length_eq_zero.mp (by omega)
    subst hu
    cases f2 with
    | zero => rfl
    | succ g => rw [scanDefaultGo, scanDefaultGo, findOccDefault_nil]
  | succ f ihf =>
    intro f2 u h1 h2
    cases f2 with
    | zero =>
      have hu : u = [] := List.length_eq_zero.mp (by omega)
      subst hu
      rw [scanDefaultGo, scanDefaultGo, findOccDefault_nil]
    | succ g =>
      rw [scanDefaultGo, scanDefaultGo]
      cases hocc : findOccDefault u with
      | none => rfl
      | some occ =>
        obtain ⟨p, nm⟩ := occ
        simp only []
        have hb := findOccDefault_bounds hocc
        have hlen : (u.drop (p + nm.length + 2)).length ≤ f := by
          rw [List.length_drop]
          have : 1 ≤ nm.length := List.length_pos.mpr hb.1
          omega
        have hlen2 : (u.drop (p + nm.length + 2)).length ≤ g := by
          rw [List.length_drop]
          have : 1 ≤ nm.length := List.length_pos.mpr hb.1
          omega
        cases hlk : lookupMap m nm with
        | some v => simp only []; rw [ihf g _ hlen hlen2]
        | none => simp only []; rw [ihf g _ hlen hlen2]

theorem scanDefault_none {m : List (List Char × List Char)} {u : List Char}
    (h : findOccDefault u = none) : scanDefault m u = u := by
  rw [scanDefault]
  cases hl : u.length with
  | zero => rfl
  | succ k => rw [scanDefaultGo, h]

theorem scanDefault_hit {m : List (List Char × List Char)} {u : List Char} {p : Nat}
    {nm v : List Char} (hocc : findOccDefault u = some (p, nm))
    (hlk : lookupMap m nm = some v) :
    scanDefault m u = u.take p ++ v ++ scanDefault m (u.drop (p + nm.length + 2)) := by
  have hb := findOccDefault_bounds hocc
  rw [scanDefault, scanDefault]
  cases hl : u.length with
  | zero => omega
  | succ k =>
    rw [scanDefaultGo, hocc]
    simp only []
    rw [hlk]
    simp only []
    have h1 : (u.drop (p + nm.length + 2)).length ≤ k := by
      rw [List.length_drop]
      have : 1 ≤ nm.length := List.length_pos.mpr hb.1
      omega
    rw [scanDefaultGo_congr m k (u.drop (p + nm.length + 2)).length _ h1 (le_refl _)]

theorem scanDefault_miss {m : List (List Char × List Char)} {u : List Char} {p : Nat}
    {nm : List Char} (hocc : findOccDefault u = some (p, nm))
    (hlk : lookupMap m nm = none) :
    scanDefault m u
      = u.take (p + nm.length + 2) ++ scanDefault m (u.drop (p + nm.length + 2)) := by
  have hb := findOccDefault_bounds hocc
  rw [scanDefault, scanDefault]
  cases hl : u.length with
  | zero => omega
  | succ k =>
    rw [scanDefaultGo, hocc]
    simp only []
    rw [hlk]
    simp only []
    have h1 : (u.drop (p + nm.length + 2)).length ≤ k := by
      rw [List.length_drop]
      have : 1 ≤ nm.length := List.length_pos.mpr hb.1
      omega
    rw [scanDefaultGo_congr m k (u.drop (p + nm.length + 2)).length _ h1 (le_refl _)]

theorem percent_pred_eq :
    (fun c : Char => !((['%'] : List Char).contains c)) = (fun d : Char => d != '%') := by
  funext c
  by_cases h : c = '%'
  · subst h; decide
  · have h1 : (['%'] : List Char).contains c = false := by
      simp only [List.contains_cons, List.contains_nil, Bool.or_false]
      exact beq_eq_false_iff_ne.mpr h
    have h2 : (c != '%') = true := bne_iff_ne.mpr h
    rw [h1, h2]
    rfl

theorem singleton_isPrefixOf_iff {c : Char} {t : List Char} :
    (([c] : List Char).isPrefixOf t) = true ↔ t[0]? = some c := by
  cases t with
  | nil => simp [List.isPrefixOf]
  | cons d t' =>
    simp [List.isPrefixOf, beq_iff_eq]
    exact ⟨fun h => h.symm, fun h => h.symm⟩

theorem findSome?_congr {α β : Type} (l : List α) (f g : α → Option β)
    (h : ∀ a ∈ l, f a = g a) : l.findSome? f = l.findSome? g := by
  induction l with
  | nil => rfl
  | cons a t ih =>
    rw [List.findSome?_cons, List.findSome?_cons, h a (List.mem_cons_self a t)]
    cases g a with
    | some c => rfl
    | none => exact ih (fun x hx => h x (List.mem_cons_of_mem a hx))

theorem findSome?_map_out {α β γ : Type} (l : List α) (f : α → Option β) (g : α → Option γ)
    (hmap : γ → β) (hfg : ∀ a ∈ l, f a = (g a).map hmap) :
    l.findSome? f = (l.findSome? g).map hmap := by
  induction l with
  | nil => rfl
  | cons a t ih =>
    rw [List.findSome?_cons, List.findSome?_cons, hfg a (List.mem_cons_self a t)]
    cases g a with
    | some c => rfl
    | none =>
      simp only [Option.map_none]
      exact ih (fun x hx => hfg x (List.mem_cons_of_mem a hx))

theorem matchAtDelim_shift (vc : Char) (close : List Char) (s : List Char) (pos p : Nat) :
    matchAtDelim vc close s (pos + p)
      = (matchAtDelim vc close (s.drop pos) p).map (fun q => (q.1 + pos, q.2)) := by
  have h1 : (s.drop pos)[p]? = s[pos + p]? := List.getElem?_drop s pos p
  have h2 : (s.drop pos).drop (p + 1) = s.drop (pos + p + 1) := by
    rw [List.drop_drop]
    have he : pos + (p + 1) = pos + p + 1 := by omega
    rw [he]
  have h3 : ∀ L, (s.drop pos).drop (p + 1 + L) = s.drop (pos + p + 1 + L) := by
    intro L
    rw [List.drop_drop]
    congr 1
    omega
  rw [matchAtDelim, matchAtDelim, h1, h2, h3]
  by_cases hc : s[pos + p]? = some vc
  · rw [if_pos hc, if_pos hc]
    by_cases hrun :
        ((s.drop (pos + p + 1)).takeWhile (fun c => !(close.contains c))).isEmpty = true
    · rw [if_pos hrun, if_pos hrun]; rfl
    · rw [if_neg hrun, if_neg hrun]
      by_cases hpre : close.isPrefixOf
          (s.drop (pos + p + 1 +
            ((s.drop (pos + p + 1)).takeWhile (fun c => !(close.contains c))).length)) = true
      · rw [if_pos hpre, if_pos hpre]
        simp only [Option.map_some', Option.some.injEq, Prod.mk.injEq]
        exact ⟨by omega, trivial⟩
      · rw [if_neg hpre, if_neg hpre]; rfl
  · rw [if_neg hc, if_neg hc]; rfl

theorem matchAtDelim_default_occ (u : List Char) (p : Nat) :
    (matchAtDelim '%' ['%'] u p).map (fun q => (p, q.1, q.2))
      = (occAtDefault u p).map (fun q => (q.1, q.1 + q.2.length + 2, q.2)) := by
  rw [matchAtDelim, occAtDefault, percent_pred_eq]
  by_cases hc : u[p]? = some '%'
  · rw [if_pos hc, if_pos hc]
    by_cases hrun : ((u.drop (p + 1)).takeWhile (fun d => d != '%')) = []
    · rw [if_pos (by rw [hrun]; rfl),
        if_neg (fun hcon => hcon.1 hrun)]
      rfl
    · rw [if_neg (fun hi => hrun (List.isEmpty_iff.mp hi))]
      by_cases hnext :
          u[p + 1 + ((u.drop (p + 1)).takeWhile (fun d => d != '%')).length]? = some '%'
      · have hpre : ((['%'] : List Char).isPrefixOf
            (u.drop (p + 1 + ((u.drop (p + 1)).takeWhile (fun d => d != '%')).length)))
              = true := by
          rw [singleton_isPrefixOf_iff, List.getElem?_drop]
          rw [show p + 1 + ((u.drop (p + 1)).takeWhile (fun d => d != '%')).length + 0
            = p + 1 + ((u.drop (p + 1)).takeWhile (fun d => d != '%')).length by omega]
          exact hnext
        rw [if_pos hpre, if_pos ⟨hrun, hnext⟩]
        simp only [Option.map_some', Option.some.injEq, Prod.mk.injEq, List.length_cons,
          List.length_nil]
        exact ⟨trivial, by omega, trivial⟩
      · have hpre : ¬ (((['%'] : List Char).isPrefixOf
            (u.drop (p + 1 + ((u.drop (p + 1)).takeWhile (fun d => d != '%')).length)))
              = true) := by
          rw [singleton_isPrefixOf_iff, List.getElem?_drop]
          rw [show p + 1 + ((u.drop (p + 1)).takeWhile (fun d => d != '%')).length + 0
            = p + 1 + ((u.drop (p + 1)).takeWhile (fun d => d != '%')).length by omega]
          exact hnext
        rw [if_neg hpre, if_neg (fun hcon => hnext hcon.2)]
        rfl
  · rw [if_neg hc, if_neg hc]
    rfl

theorem searchVar_default_occ (u : List Char) :
    searchVar '%' (some []) u 0
      = (findOccDefault u).map (fun q => (q.1, q.1 + q.2.length + 2, q.2)) := by
  rw [searchVar, findOccDefault, Nat.sub_zero, ← List.range_eq_range']
  apply findSome?_map_out
  intro p _
  have hmv : matchVarAt '%' (some []) u p = matchAtDelim '%' ['%'] u p := rfl
  rw [hmv]
  exact matchAtDelim_default_occ u p

theorem searchVar_delim_shift (vc : Char) (e : List Char) (s : List Char) (pos : Nat) :
    searchVar vc (some e) s pos
      = (searchVar vc (some e) (s.drop pos) 0).map
          (fun q => (q.1 + pos, q.2.1 + pos, q.2.2)) := by
  rw [searchVar, searchVar, List.length_drop, Nat.sub_zero, ← List.range_eq_range',
    List.range'_eq_map_range, List.findSome?_map]
  apply findSome?_map_out
  intro p _
  simp only [Function.comp_apply]
  have hmv1 : matchVarAt vc (some e) s (pos + p)
      = matchAtDelim vc (effectiveClose vc e) s (pos + p) := rfl
  have hmv2 : matchVarAt vc (some e) (s.drop pos) p
      = matchAtDelim vc (effectiveClose vc e) (s.drop pos) p := rfl
  rw [hmv1, hmv2, matchAtDelim_shift]
  cases matchAtDelim vc (effectiveClose vc e) (s.drop pos) p with
  | none => rfl
  | some q =>
    obtain ⟨a, b⟩ := q
    simp only [Option.map_some', Option.some.injEq, Prod.mk.injEq]
    exact ⟨by omega, trivial⟩

theorem searchVar_default_eq (s : List Char) (pos : Nat) :
    searchVar '%' (some []) s pos
      = (findOccDefault (s.drop pos)).map
          (fun q => (q.1 + pos, q.1 + q.2.length + 2 + pos, q.2)) := by
  rw [searchVar_delim_shift, searchVar_default_occ, Option.map_map]
  rfl

theorem expandLoop_default_eq_scan (m : List (List Char × List Char)) :
    ∀ (fuel : Nat) (s : List Char) (pos : Nat), pos ≤ s.length → s.length - pos < fuel →
      expandLoop m '%' (some []) true false fuel s pos
        = some (Except.ok (s.take pos ++ scanDefault m (s.drop pos))) := by
  intro fuel
  induction fuel with
  | zero => intro s pos h1 h2; omega
  | succ f ih =>
    intro s pos hpos hfuel
    cases hocc : findOccDefault (s.drop pos) with
    | none =>
      have hs : searchVar '%' (some []) s pos = none := by
        rw [searchVar_default_eq, hocc]; rfl
      rw [expandLoop, hs, scanDefault_none hocc, List.take_append_drop]
    | some occ =>
      obtain ⟨p, nm⟩ := occ
      have hb := findOccDefault_bounds hocc
      rw [List.length_drop] at hb
      have hs : searchVar '%' (some []) s pos
          = some (p + pos, p + nm.length + 2 + pos, nm) := by
        rw [searchVar_default_eq, hocc]; rfl
      have hnm1 : 1 ≤ nm.length := List.length_pos.mpr hb.1
      rw [expandLoop, hs]
      simp only []
      have hnorm : normalizeName true nm = nm := rfl
      rw [hnorm]
      cases hlk : lookupMap m nm with
      | some v =>
        simp only []
        have hih := ih (s.take (p + pos) ++ v ++ s.drop (p + nm.length + 2 + pos))
            ((s.take (p + pos) ++ v).length)
            (by simp only [List.length_append, List.length_take, List.length_drop]; omega)
            (by simp only [List.length_append, List.length_take, List.length_drop]; omega)
        rw [hih]
        have hlist :
            (s.take (p + pos) ++ v ++ s.drop (p + nm.length + 2 + pos)).take
                ((s.take (p + pos) ++ v).length) ++
              scanDefault m ((s.take (p + pos) ++ v ++
                s.drop (p + nm.length + 2 + pos)).drop ((s.take (p + pos) ++ v).length))
              = s.take pos ++ scanDefault m (s.drop pos) := by
          rw [List.take_left, List.drop_left]
          rw [scanDefault_hit hocc hlk]
          rw [List.drop_drop]
          have hq : pos + (p + nm.length + 2) = p + nm.length + 2 + pos := by omega
          rw [hq]
          rw [← List.append_assoc, ← List.append_assoc, ← List.take_add]
          have hpp : pos + p = p + pos := by omega
          rw [hpp]
        rw [hlist]
      | none =>
        simp only [Bool.false_eq_true, if_false]
        have hih := ih s (p + nm.length + 2 + pos) (by omega) (by omega)
        rw [hih]
        have hlist :
            s.take (p + nm.length + 2 + pos) ++
              scanDefault m (s.drop (p + nm.length + 2 + pos))
              = s.take pos ++ scanDefault m (s.drop pos) := by
          rw [scanDefault_miss hocc hlk, List.drop_drop]
          have hq : pos + (p + nm.length + 2) = p + nm.length + 2 + pos := by omega
          rw [hq]
          rw [← List.append_assoc, ← List.take_add]
          rw [hq]
        rw [hlist]

/-- C1 (amended): with the defaults, `expand_var` scans left to right with
no rescanning of consumed text: it repeatedly finds the leftmost occurrence
of `var_char + name + var_char` (the name a non-empty run of non-`var_char`
characters) at or after the scan position, replaces it with the string form
of the mapped value when the name is a key (resuming after the
replacement), and otherwise resumes just past the occurrence — so a keyed
occurrence overlapping an earlier consumed match is not replaced.  In
particular `expand_var("Hello %NAME%!", {"NAME": "World"})` returns
`"Hello World!"`. -/
theorem expand_var_default_scan :
    (∀ (s : List Char) (m : List (List Char × List Char)),
      expand_var s m '%' (some []) true false = some (Except.ok (scanDefault m s))) ∧
    expand_var "Hello %NAME%!".data [("NAME".data, "World".data)] '%' (some []) true false
      = some (Except.ok "Hello World!".data) := by
  constructor
  · intro s m
    have h := expandLoop_default_eq_scan m (s.length + 1) s 0 (by omega) (by omega)
    rw [expand_var, h]
    rfl
  · rfl
